import Mathlib

/-!
Verification of the two resource managers of the kernel core:
the hash-partitioned disk-block buffer cache (`kernel/bio.c`) and the
per-processor physical-page allocator (`kernel/kalloc.c`).

The C code is shallowly embedded: machine `uint` values are natural
numbers reduced modulo 2^32 where overflow matters, the global arrays
become lists, fatal `panic` calls become `Option.none` results, and the
sequential behaviour of each operation under its locks is modelled as a
pure state transformer.
-/

namespace BufCache

/-- `0xffffffff`, the sentinel used by `bget`'s LRU scan and the largest
value a C `uint` can hold. -/
def UINTMAX : Nat := 4294967295

/-- `2^32`, the modulus of C `uint` arithmetic. -/
def UINTMOD : Nat := 4294967296

/-- `BUCKETSIZE` from bio.c: the number of hash partitions. -/
def BUCKETSIZE : Nat := 13

/-- `BUFFERSIZE` from bio.c: the number of buffer slots per partition. -/
def BUFFERSIZE : Nat := 7

/-- One `struct buf`: device id, block number, validity flag, reference
count, last-use tick, the sleep-lock state (held by the modelled caller)
and an abstract payload. -/
structure Buf where
  dev : Nat
  blockno : Nat
  valid : Bool
  refcnt : Nat
  lastuse : Nat
  locked : Bool
  data : Nat
  deriving Repr, DecidableEq

instance : Inhabited Buf := ⟨⟨0, 0, false, 0, 0, false, 0⟩⟩

/-- The whole cache: `BUCKETSIZE` buckets of `BUFFERSIZE` slots each. -/
abbrev BCache := List (List Buf)

/-- The slot at bucket `i`, index `j` (out-of-range reads give the
zero-initialized buffer, matching the C global's zero state). -/
def slotAt (s : BCache) (i j : Nat) : Buf := (s.getD i []).getD j default

/-- C `uint` increment: `x++`. -/
def uinc (x : Nat) : Nat := (x + 1) % UINTMOD

/-- C `uint` decrement: `x--`, wrapping at zero. -/
def udec (x : Nat) : Nat := (x + UINTMAX) % UINTMOD

/-- The zero-initialized C global `bcachebucket` array, before `binit`
runs: every field of every slot is zero. -/
def zeroState : BCache := List.replicate BUCKETSIZE (List.replicate BUFFERSIZE default)

/-- `binit`: for every bucket and slot, initialize the sleep lock and set
`lastuse` and `refcnt` to 0 (all other fields keep their values). -/
def binit (s : BCache) : BCache :=
  s.map (fun bucket => bucket.map (fun b => { b with lastuse := 0, refcnt := 0, locked := false }))

/-- The cache state after boot: `binit` applied to the zeroed global. -/
def initState : BCache := binit zeroState

/-- The first loop of `bget`: find the first slot whose `dev` and
`blockno` match, returning its index. -/
def findMatch (dev blockno : Nat) : List Buf → Option Nat
  | [] => none
  | b :: rest =>
    if b.dev = dev ∧ b.blockno = blockno then some 0
    else (findMatch dev blockno rest).map (· + 1)

/-- The second loop of `bget`, scanning the enumerated slots: starting
from `least = 0xffffffff` and `least_idx = -1` (modelled as `none`),
record each slot with `refcnt == 0 && lastuse < least`. -/
def lruLoop : List (Nat × Buf) → Nat → Option Nat → Nat × Option Nat
  | [], least, idx => (least, idx)
  | (i, b) :: rest, least, idx =>
    if b.refcnt = 0 ∧ b.lastuse < least then lruLoop rest b.lastuse (some i)
    else lruLoop rest least idx

/-- The LRU selection of `bget`: index of the recycling victim, `none`
meaning `least_idx == -1`. -/
def lruPick (slots : List Buf) : Option Nat :=
  (lruLoop slots.enum UINTMAX none).2

/-- The bucket `bcachebucket[blockno % BUCKETSIZE]` selected by a block
number. -/
def bucketOf (s : BCache) (blockno : Nat) : List Buf := s.getD (blockno % BUCKETSIZE) []

/-- `bget dev blockno ticks s`: returns the new cache state and the index
of the returned slot inside bucket `blockno % BUCKETSIZE`; `none` models
`panic("do not have enough free buffer")`. On a hit the slot's `refcnt`
is incremented and `lastuse` set to `ticks`; on a miss the LRU victim's
identity is overwritten, it is marked invalid and its `refcnt` set to 1;
either way the slot's sleep lock is then acquired. -/
def bget (dev blockno ticks : Nat) (s : BCache) : Option (BCache × Nat) :=
  let bi := blockno % BUCKETSIZE
  let bucket := bucketOf s blockno
  match findMatch dev blockno bucket with
  | some k =>
    let b := bucket.getD k default
    let b' := { b with refcnt := uinc b.refcnt, lastuse := ticks, locked := true }
    some (s.set bi (bucket.set k b'), k)
  | none =>
    match lruPick bucket with
    | none => none
    | some k =>
      let b := bucket.getD k default
      let b' := { b with dev := dev, blockno := blockno, lastuse := ticks,
                         valid := false, refcnt := 1, locked := true }
      some (s.set bi (bucket.set k b'), k)

/-- `bread dev blockno ticks disk s`: calls `bget`; if the buffer is not
valid, performs the device transfer `virtio_disk_rw(b, 0)` (copying
`disk dev blockno` into the payload) and marks it valid. Returns the new
state, the slot index and whether a device transfer happened. -/
def bread (dev blockno ticks : Nat) (disk : Nat → Nat → Nat) (s : BCache) :
    Option (BCache × Nat × Bool) :=
  match bget dev blockno ticks s with
  | none => none
  | some (s', k) =>
    let bi := blockno % BUCKETSIZE
    let b := slotAt s' bi k
    if b.valid then some (s', k, false)
    else
      let b' := { b with data := disk dev blockno, valid := true }
      some (s'.set bi ((s'.getD bi []).set k b'), k, true)

/-- `brelse` on the slot at bucket `i`, index `j`: panics unless the
caller holds the slot's sleep lock; otherwise decrements `refcnt` (C
`uint` decrement) and releases the sleep lock. -/
def brelse (i j : Nat) (s : BCache) : Option BCache :=
  let b := slotAt s i j
  if b.locked then
    some (s.set i ((s.getD i []).set j { b with refcnt := udec b.refcnt, locked := false }))
  else none

/-- `bwrite` on the slot at bucket `i`, index `j`: panics unless the
caller holds the sleep lock; the device transfer does not change the
cache state. -/
def bwrite (i j : Nat) (s : BCache) : Option BCache :=
  if (slotAt s i j).locked then some s else none

/-- `bpin`: increment the slot's `refcnt` under the bucket lock. -/
def bpin (i j : Nat) (s : BCache) : BCache :=
  let b := slotAt s i j
  s.set i ((s.getD i []).set j { b with refcnt := uinc b.refcnt })

/-- `bunpin`: decrement the slot's `refcnt` under the bucket lock. -/
def bunpin (i j : Nat) (s : BCache) : BCache :=
  let b := slotAt s i j
  s.set i ((s.getD i []).set j { b with refcnt := udec b.refcnt })

/-- Well-formedness of a cache state: the global array shape
(`BUCKETSIZE` buckets of `BUFFERSIZE` slots) and every `uint` field in
range. -/
def WF (s : BCache) : Prop :=
  s.length = BUCKETSIZE ∧
  ∀ bucket ∈ s, bucket.length = BUFFERSIZE ∧
    ∀ b ∈ bucket, b.lastuse ≤ UINTMAX ∧ b.refcnt ≤ UINTMAX

instance : DecidablePred WF := fun s => by
  unfold WF
  infer_instance

/-! ### The transition system of the cache -/

/-- One operation of the buffer-cache interface, executed atomically by
the modelled caller (fatal calls produce no step). -/
inductive Step : BCache → BCache → Prop
  | get {dev blockno ticks : Nat} {s s' : BCache} {k : Nat} :
      bget dev blockno ticks s = some (s', k) → Step s s'
  | read {dev blockno ticks : Nat} {disk : Nat → Nat → Nat} {s s' : BCache} {k : Nat} {tr : Bool} :
      bread dev blockno ticks disk s = some (s', k, tr) → Step s s'
  | relse {i j : Nat} {s s' : BCache} : brelse i j s = some s' → Step s s'
  | write {i j : Nat} {s s' : BCache} : bwrite i j s = some s' → Step s s'
  | pin (i j : Nat) (s : BCache) : Step s (bpin i j s)
  | unpin (i j : Nat) (s : BCache) : Step s (bunpin i j s)

/-- Cache states reachable from the initialized state by any sequence of
`acquire`/`read`/`release`/`write`/`pin`/`unpin` calls. -/
def Reachable (s : BCache) : Prop := Relation.ReflTransGen Step initState s

/-- The fixed array shape of the cache. -/
def Shape (s : BCache) : Prop :=
  s.length = BUCKETSIZE ∧ ∀ bucket ∈ s, bucket.length = BUFFERSIZE

instance : DecidablePred Shape := fun s => by
  unfold Shape
  infer_instance

/-- Any two distinct slots carrying the same `(dev, blockno)` identity
carry the placeholder identity `(0, 0)` left by zero initialization. -/
def UniqueIds (s : BCache) : Prop :=
  ∀ i₁ j₁ i₂ j₂, i₁ < BUCKETSIZE → j₁ < BUFFERSIZE → i₂ < BUCKETSIZE → j₂ < BUFFERSIZE →
    (i₁, j₁) ≠ (i₂, j₂) →
    (slotAt s i₁ j₁).dev = (slotAt s i₂ j₂).dev →
    (slotAt s i₁ j₁).blockno = (slotAt s i₂ j₂).blockno →
    (slotAt s i₁ j₁).dev = 0 ∧ (slotAt s i₁ j₁).blockno = 0

/-- Every slot whose identity is not the placeholder `(0, 0)` sits in the
bucket its block number hashes to. -/
def BucketHome (s : BCache) : Prop :=
  ∀ i j, i < BUCKETSIZE → j < BUFFERSIZE →
    ¬((slotAt s i j).dev = 0 ∧ (slotAt s i j).blockno = 0) →
    (slotAt s i j).blockno % BUCKETSIZE = i

/-- The inductive invariant of the cache transition system. -/
def Inv (s : BCache) : Prop := Shape s ∧ UniqueIds s ∧ BucketHome s

/-! ### Concrete runs used as witnesses and counterexamples -/

/-- One `acquire` in an `Option`-chained run. -/
def acqO (dev blockno ticks : Nat) (s : Option BCache) : Option BCache :=
  (s.bind (bget dev blockno ticks)).map Prod.fst

/-- Scenario A: acquire 7 distinct blocks of bucket 0 from the initial
state without releasing any. -/
def scenA7 : Option BCache :=
  acqO 1 91 7 (acqO 1 78 6 (acqO 1 65 5 (acqO 1 52 4 (acqO 1 39 3
    (acqO 1 26 2 (acqO 1 13 1 (some initState)))))))

/-- A run whose first acquire happens at tick `0xffffffff`: acquire block
13 at the largest possible tick value, release it, then pin the other six
slots of bucket 0 with blocks 26..91. -/
def cexC1a : BCache := ((bget 1 13 UINTMAX initState).map Prod.fst).getD []

def cexC1b : BCache := (brelse 0 0 cexC1a).getD []

def cexC1c : BCache := ((bget 1 26 2 cexC1b).map Prod.fst).getD []

def cexC1d : BCache := ((bget 1 39 3 cexC1c).map Prod.fst).getD []

def cexC1e : BCache := ((bget 1 52 4 cexC1d).map Prod.fst).getD []

def cexC1f : BCache := ((bget 1 65 5 cexC1e).map Prod.fst).getD []

def cexC1g : BCache := ((bget 1 78 6 cexC1f).map Prod.fst).getD []

def cexC1h : BCache := ((bget 1 91 7 cexC1g).map Prod.fst).getD []

/-- A state with one exclusively locked buffer, obtained by a single
acquire from the initial state. -/
def lockedState : BCache := ((bget 1 13 5 initState).map Prod.fst).getD []

/-- A concrete disk image used in witness runs. -/
def diskW : Nat → Nat → Nat := fun d b => d * 100000 + b

/-- The cache after a first `bread(1, 13)` from the initial state. -/
def readStateA : BCache := ((bread 1 13 1 diskW initState).map (fun p => p.1)).getD []

/-- `readStateA` after releasing the buffer returned by the read. -/
def readStateB : BCache := (brelse (13 % BUCKETSIZE) 0 readStateA).getD []

end BufCache

namespace KAlloc

/-- `PGSIZE` from riscv.h: the page size. -/
def PGSIZE : Nat := 4096

/-- The per-processor pools: `kmem[c].freelist` as a list of page
addresses, one list per processor. -/
abbrev KState := List (List Nat)

/-- The validity check of `kfree`: page-aligned, at or above the first
address after the kernel (`end`), and strictly below `PHYSTOP`. -/
def validPage (endAddr physTop pa : Nat) : Prop :=
  pa % PGSIZE = 0 ∧ endAddr ≤ pa ∧ pa < physTop

instance (endAddr physTop pa : Nat) : Decidable (validPage endAddr physTop pa) := by
  unfold validPage
  infer_instance

/-- `kfree`: panic (`none`) when the address is misaligned, below `end`
or at/above `PHYSTOP`; otherwise push the page onto the current
processor's free list. -/
def kfree (endAddr physTop cpu pa : Nat) (s : KState) : Option KState :=
  if pa % PGSIZE ≠ 0 ∨ pa < endAddr ∨ physTop ≤ pa then none
  else some (s.set cpu (pa :: s.getD cpu []))

/-- The stealing loop of `kalloc`: visit the pools in the given order and
pop the head of the first non-empty one. -/
def tryFrom : List Nat → KState → Option Nat × KState
  | [], s => (none, s)
  | c :: cs, s =>
    match s.getD c [] with
    | r :: rest => (some r, s.set c rest)
    | [] => tryFrom cs s

/-- The visit order of the stealing loop:
`(cpu+1) % ncpu, (cpu+2) % ncpu, …, (cpu+ncpu-1) % ncpu`. -/
def stealOrder (ncpu cpu : Nat) : List Nat :=
  (List.range (ncpu - 1)).map (fun i => (cpu + i + 1) % ncpu)

/-- `kalloc` on processor `cpu`: pop from that processor's free list; if
it is empty, steal the first available page in round-robin order; `none`
models the C null return ("no memory"). -/
def kalloc (ncpu cpu : Nat) (s : KState) : Option Nat × KState :=
  match s.getD cpu [] with
  | r :: rest => (some r, s.set cpu rest)
  | [] => tryFrom (stealOrder ncpu cpu) s

/-- All pages currently sitting in some free list. -/
def allPages (s : KState) : List Nat := s.flatten

/-- Every page in every pool passes `kfree`'s validity check. -/
def KWF (endAddr physTop : Nat) (s : KState) : Prop :=
  ∀ p ∈ allPages s, validPage endAddr physTop p

/-- One allocator operation under the documented usage contract:
`kfree` is only applied to pages not currently free ("which normally
should have been returned by a call to kalloc()"). -/
inductive KStep (ncpu endAddr physTop : Nat) : KState → KState → Prop
  | alloc {cpu p : Nat} {s s' : KState} :
      kalloc ncpu cpu s = (some p, s') → KStep ncpu endAddr physTop s s'
  | free {cpu q : Nat} {s s' : KState} :
      q ∉ allPages s → kfree endAddr physTop cpu q s = some s' →
      KStep ncpu endAddr physTop s s'

/-- Allocator states reachable from the all-empty pools. -/
def KReach (ncpu endAddr physTop : Nat) (s : KState) : Prop :=
  Relation.ReflTransGen (KStep ncpu endAddr physTop) (List.replicate ncpu []) s

end KAlloc

namespace BufCache

/-! ### List indexing helpers -/

theorem getD_set_ne {α : Type _} (l : List α) {i j : Nat} (a d : α) (h : i ≠ j) :
    (l.set i a).getD j d = l.getD j d := by
  simp [List.getD_eq_getElem?_getD, List.getElem?_set_ne h]

theorem getD_set_self {α : Type _} (l : List α) {i : Nat} (a d : α) (h : i < l.length) :
    (l.set i a).getD i d = a := by
  simp [List.getD_eq_getElem?_getD, List.getElem?_set_self, h]

theorem getD_replicate {α : Type _} (x d : α) {n i : Nat} (h : i < n) :
    (List.replicate n x).getD i d = x := by
  rw [List.getD_eq_getElem _ _ (by simpa using h)]
  simp

/-! ### Characterization of the matching scan -/

theorem findMatch_eq_none_iff {dev blockno : Nat} {l : List Buf} :
    findMatch dev blockno l = none ↔ ∀ b ∈ l, ¬(b.dev = dev ∧ b.blockno = blockno) := by
  induction l with
  | nil => simp [findMatch]
  | cons b rest ih =>
    by_cases h : b.dev = dev ∧ b.blockno = blockno
    · simp [findMatch, h]
    · simp only [findMatch, if_neg h, Option.map_eq_none', ih, List.mem_cons]
      constructor
      · intro hall b' hb'
        rcases hb' with rfl | hb'
        · exact h
        · exact hall b' hb'
      · intro hall b' hb'
        exact hall b' (Or.inr hb')

theorem findMatch_none_getD {dev blockno : Nat} {l : List Buf}
    (h : findMatch dev blockno l = none) {j : Nat} (hj : j < l.length) :
    ¬((l.getD j default).dev = dev ∧ (l.getD j default).blockno = blockno) := by
  have := findMatch_eq_none_iff.mp h (l.getD j default) ?_
  · exact this
  · rw [List.getD_eq_getElem _ _ hj]
    exact List.getElem_mem hj

theorem findMatch_some {dev blockno : Nat} {l : List Buf} {k : Nat}
    (h : findMatch dev blockno l = some k) :
    k < l.length ∧ (l.getD k default).dev = dev ∧ (l.getD k default).blockno = blockno ∧
      ∀ j < k, ¬((l.getD j default).dev = dev ∧ (l.getD j default).blockno = blockno) := by
  induction l generalizing k with
  | nil => simp [findMatch] at h
  | cons b rest ih =>
    by_cases hb : b.dev = dev ∧ b.blockno = blockno
    · simp only [findMatch, if_pos hb, Option.some.injEq] at h
      subst h
      exact ⟨by simp, by simpa using hb.1, by simpa using hb.2, by omega⟩
    · simp only [findMatch, if_neg hb, Option.map_eq_some'] at h
      obtain ⟨k', hk', rfl⟩ := h
      obtain ⟨h1, h2, h3, h4⟩ := ih hk'
      refine ⟨by simpa using h1, by simpa using h2, by simpa using h3, ?_⟩
      intro j hj
      cases j with
      | zero => simpa using hb
      | succ j' =>
        simp only [List.getD_cons_succ]
        exact h4 j' (by omega)

theorem findMatch_eq_some_of {dev blockno : Nat} {l : List Buf} {k : Nat}
    (hk : k < l.length)
    (hdev : (l.getD k default).dev = dev) (hbn : (l.getD k default).blockno = blockno)
    (hbefore : ∀ j < k, ¬((l.getD j default).dev = dev ∧ (l.getD j default).blockno = blockno)) :
    findMatch dev blockno l = some k := by
  induction l generalizing k with
  | nil => simp at hk
  | cons b rest ih =>
    cases k with
    | zero =>
      simp only [List.getD_cons_zero] at hdev hbn
      simp [findMatch, hdev, hbn]
    | succ k' =>
      have hb : ¬(b.dev = dev ∧ b.blockno = blockno) := by
        have := hbefore 0 (by omega)
        simpa using this
      simp only [findMatch, if_neg hb, Option.map_eq_some']
      refine ⟨k', ih (by simpa using hk) (by simpa using hdev) (by simpa using hbn) ?_, rfl⟩
      intro j hj
      have := hbefore (j + 1) (by omega)
      simpa using this

/-- `findMatch` only looks at the identity fields: replacing slot `k` by a
buffer with the same `dev` and `blockno` does not change the scan. -/
theorem findMatch_set_congr {dev blockno : Nat} (l : List Buf) (k : Nat) (b' : Buf)
    (hdev : b'.dev = (l.getD k default).dev) (hbn : b'.blockno = (l.getD k default).blockno) :
    findMatch dev blockno (l.set k b') = findMatch dev blockno l := by
  induction l generalizing k with
  | nil => simp
  | cons b rest ih =>
    cases k with
    | zero =>
      simp only [List.getD_cons_zero] at hdev hbn
      simp [findMatch, hdev, hbn]
    | succ k' =>
      simp only [List.getD_cons_succ] at hdev hbn
      simp [findMatch, ih k' hdev hbn]

/-! ### Characterization of the LRU scan -/

/-- Full characterization of `bget`'s LRU loop over a suffix of the
enumeration: either no slot has `refcnt = 0` with `lastuse` below the
running threshold and the accumulator survives, or the first slot
attaining the strict minimum is selected. -/
theorem lruLoop_spec (slots : List Buf) :
    ∀ (n least : Nat) (idx : Option Nat),
      ((lruLoop (slots.enumFrom n) least idx).1 = least ∧
        (lruLoop (slots.enumFrom n) least idx).2 = idx ∧
        ∀ j, j < slots.length → (slots.getD j default).refcnt = 0 →
          ¬((slots.getD j default).lastuse < least)) ∨
      (∃ k, k < slots.length ∧
        (lruLoop (slots.enumFrom n) least idx).1 = (slots.getD k default).lastuse ∧
        (lruLoop (slots.enumFrom n) least idx).2 = some (n + k) ∧
        (slots.getD k default).refcnt = 0 ∧ (slots.getD k default).lastuse < least ∧
        (∀ j, j < k → (slots.getD j default).refcnt = 0 →
          (slots.getD k default).lastuse < (slots.getD j default).lastuse) ∧
        (∀ j, k < j → j < slots.length → (slots.getD j default).refcnt = 0 →
          (slots.getD k default).lastuse ≤ (slots.getD j default).lastuse)) := by
  induction slots with
  | nil =>
    intro n least idx
    left
    exact ⟨rfl, rfl, by simp⟩
  | cons b rest ih =>
    intro n least idx
    by_cases hb : b.refcnt = 0 ∧ b.lastuse < least
    · have hstep : lruLoop ((b :: rest).enumFrom n) least idx
          = lruLoop (rest.enumFrom (n + 1)) b.lastuse (some n) := by
        show lruLoop ((n, b) :: rest.enumFrom (n + 1)) least idx = _
        rw [lruLoop, if_pos hb]
      rcases ih (n + 1) b.lastuse (some n) with ⟨h1, h2, hnone⟩ | ⟨k, hk, h1, h2, h0, hlt, hbef, haft⟩
      · right
        refine ⟨0, by simp, ?_, ?_, by simpa using hb.1, by simpa using hb.2, by omega, ?_⟩
        · rw [hstep, h1]; simp
        · rw [hstep, h2]; simp
        · intro j h0j hj hr
          cases j with
          | zero => omega
          | succ j' =>
            simp only [List.getD_cons_succ, List.getD_cons_zero]
            have := hnone j' (by simpa using hj) (by simpa using hr)
            omega
      · right
        refine ⟨k + 1, by simpa using hk, ?_, ?_, by simpa using h0, ?_, ?_, ?_⟩
        · rw [hstep, h1]; simp
        · rw [hstep, h2]
          simp only [Option.some.injEq]
          omega
        · simp only [List.getD_cons_succ]
          omega
        · intro j hj hr
          cases j with
          | zero =>
            simp only [List.getD_cons_succ, List.getD_cons_zero]
            simp only [List.getD_cons_zero] at hr
            have := hb.2
            omega
          | succ j' =>
            simp only [List.getD_cons_succ] at hr ⊢
            exact hbef j' (by omega) hr
        · intro j hj hjlen hr
          cases j with
          | zero => omega
          | succ j' =>
            simp only [List.getD_cons_succ] at hr ⊢
            exact haft j' (by omega) (by simpa using hjlen) hr
    · have hstep : lruLoop ((b :: rest).enumFrom n) least idx
          = lruLoop (rest.enumFrom (n + 1)) least idx := by
        show lruLoop ((n, b) :: rest.enumFrom (n + 1)) least idx = _
        rw [lruLoop, if_neg hb]
      rcases ih (n + 1) least idx with ⟨h1, h2, hnone⟩ | ⟨k, hk, h1, h2, h0, hlt, hbef, haft⟩
      · left
        refine ⟨by rw [hstep, h1], by rw [hstep, h2], ?_⟩
        intro j hj hr
        cases j with
        | zero =>
          simp only [List.getD_cons_zero] at hr ⊢
          intro hcon
          exact hb ⟨hr, hcon⟩
        | succ j' =>
          simp only [List.getD_cons_succ] at hr ⊢
          exact hnone j' (by simpa using hj) hr
      · right
        refine ⟨k + 1, by simpa using hk, ?_, ?_, by simpa using h0, by simpa using hlt, ?_, ?_⟩
        · rw [hstep, h1]; simp
        · rw [hstep, h2]
          simp only [Option.some.injEq]
          omega
        · intro j hj hr
          cases j with
          | zero =>
            simp only [List.getD_cons_succ, List.getD_cons_zero]
            simp only [List.getD_cons_zero] at hr
            have hnb : ¬(b.lastuse < least) := fun hcon => hb ⟨hr, hcon⟩
            omega
          | succ j' =>
            simp only [List.getD_cons_succ] at hr ⊢
            exact hbef j' (by omega) hr
        · intro j hj hjlen hr
          cases j with
          | zero => omega
          | succ j' =>
            simp only [List.getD_cons_succ] at hr ⊢
            exact haft j' (by omega) (by simpa using hjlen) hr

/-- If `lruPick` selects index `k` then `k` is in range, its slot is
unreferenced with `lastuse` strictly below the `0xffffffff` sentinel, and
it is the first slot attaining the minimum `lastuse` among unreferenced
slots. -/
theorem lruPick_some {slots : List Buf} {k : Nat} (h : lruPick slots = some k) :
    k < slots.length ∧ (slots.getD k default).refcnt = 0 ∧
      (slots.getD k default).lastuse < UINTMAX ∧
      (∀ j, j < k → (slots.getD j default).refcnt = 0 →
        (slots.getD k default).lastuse < (slots.getD j default).lastuse) ∧
      (∀ j, k < j → j < slots.length → (slots.getD j default).refcnt = 0 →
        (slots.getD k default).lastuse ≤ (slots.getD j default).lastuse) := by
  have hs := lruLoop_spec slots 0 UINTMAX none
  unfold lruPick at h
  rcases hs with ⟨_, h2, _⟩ | ⟨k', hk', _, h2, h0, hlt, hbef, haft⟩
  · rw [List.enum] at h
    rw [h2] at h
    exact absurd h (by simp)
  · rw [List.enum] at h
    rw [h2] at h
    simp only [Option.some.injEq, Nat.zero_add] at h
    subst h
    exact ⟨hk', h0, hlt, hbef, haft⟩

/-- If some slot is unreferenced with `lastuse` below the sentinel, the
LRU scan selects a victim. -/
theorem lruPick_isSome {slots : List Buf} {j : Nat} (hj : j < slots.length)
    (hr : (slots.getD j default).refcnt = 0) (hl : (slots.getD j default).lastuse < UINTMAX) :
    ∃ k, lruPick slots = some k := by
  have hs := lruLoop_spec slots 0 UINTMAX none
  rcases hs with ⟨_, _, hnone⟩ | ⟨k, _, _, h2, _⟩
  · exact absurd hl (hnone j hj hr)
  · exact ⟨k, by unfold lruPick; rw [List.enum, h2]; simp⟩

/-- If the LRU scan finds no victim, every unreferenced slot has
`lastuse` at the sentinel or above. -/
theorem lruPick_none {slots : List Buf} (h : lruPick slots = none) :
    ∀ j, j < slots.length → (slots.getD j default).refcnt = 0 →
      ¬((slots.getD j default).lastuse < UINTMAX) := by
  intro j hj hr hl
  obtain ⟨k, hk⟩ := lruPick_isSome hj hr hl
  rw [h] at hk
  exact Option.noConfusion hk

/-! ### Structural lemmas about `slotAt` and one-slot updates -/

theorem slotAt_set_self {s : BCache} {i j : Nat} (b : Buf)
    (hi : i < s.length) (hj : j < (s.getD i []).length) :
    slotAt (s.set i ((s.getD i []).set j b)) i j = b := by
  unfold slotAt
  rw [getD_set_self _ _ _ hi, getD_set_self _ _ _ hj]

theorem slotAt_set_ne {s : BCache} {i j i' j' : Nat} (b : Buf) (h : (i', j') ≠ (i, j)) :
    slotAt (s.set i ((s.getD i []).set j b)) i' j' = slotAt s i' j' := by
  unfold slotAt
  by_cases hi : i' = i
  · subst hi
    have hj : j ≠ j' := by
      intro h'
      exact h (by rw [h'])
    by_cases hlen : i' < s.length
    · rw [getD_set_self _ _ _ hlen, getD_set_ne _ _ _ hj]
    · rw [List.set_eq_of_length_le (by omega)]
  · rw [getD_set_ne _ _ _ (fun h' => hi h'.symm)]

theorem length_set_bucket (s : BCache) (i j : Nat) (b : Buf) :
    (s.set i ((s.getD i []).set j b)).length = s.length :=
  List.length_set s i _

/-! ### Inversion of `bget` -/

/-- The hit branch of `bget`, as an equation. -/
theorem bget_hit_eq {dev blockno ticks : Nat} {s : BCache} {k : Nat}
    (hm : findMatch dev blockno (bucketOf s blockno) = some k) :
    bget dev blockno ticks s = some (s.set (blockno % BUCKETSIZE)
      ((bucketOf s blockno).set k
        { (bucketOf s blockno).getD k default with
          refcnt := uinc ((bucketOf s blockno).getD k default).refcnt,
          lastuse := ticks, locked := true }), k) := by
  simp [bget, hm]

/-- The miss branch of `bget`, as an equation. -/
theorem bget_miss_eq {dev blockno ticks : Nat} {s : BCache} {k : Nat}
    (hm : findMatch dev blockno (bucketOf s blockno) = none)
    (hp : lruPick (bucketOf s blockno) = some k) :
    bget dev blockno ticks s = some (s.set (blockno % BUCKETSIZE)
      ((bucketOf s blockno).set k
        { (bucketOf s blockno).getD k default with
          dev := dev, blockno := blockno, lastuse := ticks,
          valid := false, refcnt := 1, locked := true }), k) := by
  simp [bget, hm, hp]

/-- The fatal branch of `bget`: no match and no LRU victim. -/
theorem bget_none_eq {dev blockno ticks : Nat} {s : BCache}
    (hm : findMatch dev blockno (bucketOf s blockno) = none)
    (hp : lruPick (bucketOf s blockno) = none) :
    bget dev blockno ticks s = none := by
  simp [bget, hm, hp]

/-- A successful `bget` either hit an existing match (updating only
`refcnt`, `lastuse` and the sleep lock of the matching slot) or recycled
the LRU victim of a bucket containing no match. -/
theorem bget_inv {dev blockno ticks : Nat} {s s' : BCache} {k : Nat}
    (h : bget dev blockno ticks s = some (s', k)) :
    (findMatch dev blockno (bucketOf s blockno) = some k ∧
      s' = s.set (blockno % BUCKETSIZE) ((bucketOf s blockno).set k
        { (bucketOf s blockno).getD k default with
          refcnt := uinc ((bucketOf s blockno).getD k default).refcnt,
          lastuse := ticks, locked := true })) ∨
    (findMatch dev blockno (bucketOf s blockno) = none ∧
      lruPick (bucketOf s blockno) = some k ∧
      s' = s.set (blockno % BUCKETSIZE) ((bucketOf s blockno).set k
        { (bucketOf s blockno).getD k default with
          dev := dev, blockno := blockno, lastuse := ticks,
          valid := false, refcnt := 1, locked := true })) := by
  rcases hm : findMatch dev blockno (bucketOf s blockno) with _ | k'
  · rcases hp : lruPick (bucketOf s blockno) with _ | k''
    · rw [bget_none_eq hm hp] at h
      exact Option.noConfusion h
    · rw [bget_miss_eq hm hp] at h
      simp only [Option.some.injEq, Prod.mk.injEq] at h
      obtain ⟨hS, hk⟩ := h
      subst hk
      right
      exact ⟨rfl, rfl, hS.symm⟩
  · rw [bget_hit_eq hm] at h
    simp only [Option.some.injEq, Prod.mk.injEq] at h
    obtain ⟨hS, hk⟩ := h
    subst hk
    left
    exact ⟨rfl, hS.symm⟩

theorem slotAt_set_bucket_self {s : BCache} {blockno k : Nat} (b : Buf)
    (hlen : blockno % BUCKETSIZE < s.length) (hk : k < (bucketOf s blockno).length) :
    slotAt (s.set (blockno % BUCKETSIZE) ((bucketOf s blockno).set k b))
      (blockno % BUCKETSIZE) k = b :=
  slotAt_set_self b hlen hk

theorem slotAt_set_bucket_ne {s : BCache} {blockno k i' j' : Nat} (b : Buf)
    (h : (i', j') ≠ (blockno % BUCKETSIZE, k)) :
    slotAt (s.set (blockno % BUCKETSIZE) ((bucketOf s blockno).set k b)) i' j'
      = slotAt s i' j' :=
  slotAt_set_ne b h

/-- A slot whose sleep lock is held lies inside the array bounds (an
out-of-range read yields the zero buffer, whose lock is free). -/
theorem slotAt_locked_bounds {s : BCache} {i j : Nat}
    (h : (slotAt s i j).locked = true) :
    i < s.length ∧ j < (s.getD i []).length := by
  constructor
  · by_contra hi
    push_neg at hi
    unfold slotAt at h
    rw [List.getD_eq_default _ _ hi] at h
    simp at h
  · by_contra hj
    push_neg at hj
    unfold slotAt at h
    rw [List.getD_eq_default _ _ hj] at h
    simp [default] at h

/-- A bucket index whose bucket has any element is in range. -/
theorem lt_length_of_bucket {s : BCache} {blockno k : Nat}
    (hk : k < (bucketOf s blockno).length) : blockno % BUCKETSIZE < s.length := by
  by_contra h
  push_neg at h
  unfold bucketOf at hk
  rw [List.getD_eq_default _ _ h] at hk
  simp at hk

/-- Bounds and length preservation of a successful `bget`. -/
theorem bget_bounds {dev blockno ticks : Nat} {s s' : BCache} {k : Nat}
    (h : bget dev blockno ticks s = some (s', k)) :
    blockno % BUCKETSIZE < s.length ∧ k < (bucketOf s blockno).length ∧
      s'.length = s.length ∧
      (bucketOf s' blockno).length = (bucketOf s blockno).length := by
  rcases bget_inv h with ⟨hm, hs'⟩ | ⟨hm, hp, hs'⟩
  · have hk : k < (bucketOf s blockno).length := (findMatch_some hm).1
    have hbi : blockno % BUCKETSIZE < s.length := lt_length_of_bucket hk
    refine ⟨hbi, hk, by rw [hs']; exact List.length_set s _ _, ?_⟩
    rw [hs']
    show ((s.set _ _).getD _ []).length = _
    rw [getD_set_self _ _ _ hbi]
    exact List.length_set _ _ _
  · have hk : k < (bucketOf s blockno).length := (lruPick_some hp).1
    have hbi : blockno % BUCKETSIZE < s.length := lt_length_of_bucket hk
    refine ⟨hbi, hk, by rw [hs']; exact List.length_set s _ _, ?_⟩
    rw [hs']
    show ((s.set _ _).getD _ []).length = _
    rw [getD_set_self _ _ _ hbi]
    exact List.length_set _ _ _

/-- After a successful `bget dev blockno`, the returned index is the
first match for `(dev, blockno)` in its bucket. -/
theorem bget_findMatch_after {dev blockno ticks : Nat} {s s' : BCache} {k : Nat}
    (h : bget dev blockno ticks s = some (s', k)) :
    findMatch dev blockno (bucketOf s' blockno) = some k := by
  obtain ⟨hbi, hk, _, _⟩ := bget_bounds h
  rcases bget_inv h with ⟨hm, hs'⟩ | ⟨hm, hp, hs'⟩
  · have hb : bucketOf s' blockno = (bucketOf s blockno).set k
        { (bucketOf s blockno).getD k default with
          refcnt := uinc ((bucketOf s blockno).getD k default).refcnt,
          lastuse := ticks, locked := true } := by
      rw [hs']
      show (s.set _ _).getD _ [] = _
      rw [getD_set_self _ _ _ hbi]
    rw [hb]
    refine Eq.trans (findMatch_set_congr _ k _ ?_ ?_) hm
    · rfl
    · rfl
  · have hb : bucketOf s' blockno = (bucketOf s blockno).set k
        { (bucketOf s blockno).getD k default with
          dev := dev, blockno := blockno, lastuse := ticks,
          valid := false, refcnt := 1, locked := true } := by
      rw [hs']
      show (s.set _ _).getD _ [] = _
      rw [getD_set_self _ _ _ hbi]
    rw [hb]
    refine findMatch_eq_some_of (by simpa using hk) ?_ ?_ ?_
    · rw [getD_set_self _ _ _ hk]
    · rw [getD_set_self _ _ _ hk]
    · intro j hj
      rw [getD_set_ne _ _ _ (by omega)]
      exact findMatch_none_getD hm (by omega)

/-- Inversion of a successful `brelse`: the slot was locked and only its
`refcnt` and lock state change. -/
theorem brelse_inv {i j : Nat} {s s' : BCache} (h : brelse i j s = some s') :
    (slotAt s i j).locked = true ∧
    s' = s.set i ((s.getD i []).set j
      { slotAt s i j with refcnt := udec (slotAt s i j).refcnt, locked := false }) := by
  by_cases hl : (slotAt s i j).locked
  · refine ⟨hl, ?_⟩
    simp only [brelse, hl, if_true] at h
    simp only [Option.some.injEq] at h
    rw [← h]
  · simp [brelse, hl] at h

/-- `bread` when the buffer comes back valid from `bget`: no transfer. -/
theorem bread_eq_of_valid {dev blockno ticks : Nat} {disk : Nat → Nat → Nat}
    {s s' : BCache} {k : Nat}
    (hb : bget dev blockno ticks s = some (s', k))
    (hv : (slotAt s' (blockno % BUCKETSIZE) k).valid = true) :
    bread dev blockno ticks disk s = some (s', k, false) := by
  simp [bread, hb, hv]

/-- `bread` when the buffer comes back invalid from `bget`: one device
transfer fills the payload and marks the slot valid. -/
theorem bread_eq_of_invalid {dev blockno ticks : Nat} {disk : Nat → Nat → Nat}
    {s s' : BCache} {k : Nat}
    (hb : bget dev blockno ticks s = some (s', k))
    (hv : (slotAt s' (blockno % BUCKETSIZE) k).valid = false) :
    bread dev blockno ticks disk s = some (s'.set (blockno % BUCKETSIZE)
      ((s'.getD (blockno % BUCKETSIZE) []).set k
        { slotAt s' (blockno % BUCKETSIZE) k with
          data := disk dev blockno, valid := true }), k, true) := by
  simp [bread, hb, hv]

/-- Inversion of a successful `bread`. -/
theorem bread_inv {dev blockno ticks : Nat} {disk : Nat → Nat → Nat}
    {s s' : BCache} {k : Nat} {tr : Bool}
    (h : bread dev blockno ticks disk s = some (s', k, tr)) :
    ∃ s₀, bget dev blockno ticks s = some (s₀, k) ∧
      (((slotAt s₀ (blockno % BUCKETSIZE) k).valid = true ∧ tr = false ∧ s' = s₀) ∨
       ((slotAt s₀ (blockno % BUCKETSIZE) k).valid = false ∧ tr = true ∧
         s' = s₀.set (blockno % BUCKETSIZE) ((s₀.getD (blockno % BUCKETSIZE) []).set k
           { slotAt s₀ (blockno % BUCKETSIZE) k with
             data := disk dev blockno, valid := true }))) := by
  rcases hb : bget dev blockno ticks s with _ | ⟨s₀, k₀⟩
  · unfold bread at h
    rw [hb] at h
    exact Option.noConfusion h
  · by_cases hv : (slotAt s₀ (blockno % BUCKETSIZE) k₀).valid
    · rw [bread_eq_of_valid hb hv] at h
      simp only [Option.some.injEq, Prod.mk.injEq] at h
      obtain ⟨h1, h2, h3⟩ := h
      subst h2
      exact ⟨s₀, rfl, Or.inl ⟨hv, h3.symm, h1.symm⟩⟩
    · rw [bread_eq_of_invalid hb (by simpa using hv)] at h
      simp only [Option.some.injEq, Prod.mk.injEq] at h
      obtain ⟨h1, h2, h3⟩ := h
      subst h2
      exact ⟨s₀, rfl, Or.inr ⟨by simpa using hv, h3.symm, h1.symm⟩⟩

/-! ### Claim C1 -/

/-- C1 (amended): on a call to `acquire` whose partition contains no slot
matching `(dev, blockno)`, provided at least one slot of the partition
has reference count 0 AND last-use strictly below the sentinel
`0xffffffff`, the slot chosen for recycling is, among the partition's
reference-count-0 slots, the one with the smallest last-use value (ties
broken by the lowest slot index: any earlier unreferenced slot has a
strictly larger last-use); the chosen slot's identity is overwritten to
`(dev, blockno)`, it is marked invalid, and its reference count is set
to 1. (The original claim, without the proviso, fails when every
unreferenced slot sits at last-use `0xffffffff`: see the
counterexample.) -/
theorem claim_C1_lru_choice (s : BCache) (dev blockno ticks : Nat)
    (hlen : s.length = BUCKETSIZE)
    (hmiss : findMatch dev blockno (bucketOf s blockno) = none)
    (j : Nat) (hj : j < (bucketOf s blockno).length)
    (hjr : ((bucketOf s blockno).getD j default).refcnt = 0)
    (hjl : ((bucketOf s blockno).getD j default).lastuse < UINTMAX) :
    ∃ k s', bget dev blockno ticks s = some (s', k) ∧
      k < (bucketOf s blockno).length ∧
      ((bucketOf s blockno).getD k default).refcnt = 0 ∧
      (∀ j', j' < (bucketOf s blockno).length →
        ((bucketOf s blockno).getD j' default).refcnt = 0 →
        ((bucketOf s blockno).getD k default).lastuse
          ≤ ((bucketOf s blockno).getD j' default).lastuse) ∧
      (∀ j', j' < k → ((bucketOf s blockno).getD j' default).refcnt = 0 →
        ((bucketOf s blockno).getD k default).lastuse
          < ((bucketOf s blockno).getD j' default).lastuse) ∧
      (slotAt s' (blockno % BUCKETSIZE) k).dev = dev ∧
      (slotAt s' (blockno % BUCKETSIZE) k).blockno = blockno ∧
      (slotAt s' (blockno % BUCKETSIZE) k).valid = false ∧
      (slotAt s' (blockno % BUCKETSIZE) k).refcnt = 1 := by
  obtain ⟨k, hp⟩ := lruPick_isSome hj hjr hjl
  obtain ⟨hk, hkr, hkl, hbef, haft⟩ := lruPick_some hp
  have hbi : blockno % BUCKETSIZE < s.length := by
    rw [hlen]
    exact Nat.mod_lt _ (by norm_num [BUCKETSIZE])
  refine ⟨k, _, bget_miss_eq hmiss hp, hk, hkr, ?_, hbef, ?_, ?_, ?_, ?_⟩
  · intro j' hj' hr'
    rcases lt_trichotomy j' k with h | h | h
    · exact le_of_lt (hbef j' h hr')
    · rw [h]
    · exact haft j' h hj' hr'
  · rw [slotAt_set_bucket_self _ hbi hk]
  · rw [slotAt_set_bucket_self _ hbi hk]
  · rw [slotAt_set_bucket_self _ hbi hk]
  · rw [slotAt_set_bucket_self _ hbi hk]

theorem claim_C1_lru_choice_witness : (bget 1 13 5 initState).isSome = true := by
  obtain ⟨k, s', h, _⟩ :=
    claim_C1_lru_choice initState 1 13 5 (by decide) (by decide) 0 (by decide) (by decide)
      (by decide)
  rw [h]
  rfl

/-- C1 counterexample: a reachable, well-formed state in which the
partition of block 104 contains no matching slot and contains an
unreferenced slot (slot 0, whose last-use is `0xffffffff`), yet
`acquire(1, 104)` is fatal instead of recycling that slot: the LRU scan
starts its running minimum at the sentinel `0xffffffff` and uses a strict
comparison, so an unreferenced slot whose last-use equals the sentinel is
never selected. -/
theorem claim_C1_counterexample :
    Reachable cexC1h ∧
    WF cexC1h ∧
    findMatch 1 104 (bucketOf cexC1h 104) = none ∧
    0 < (bucketOf cexC1h 104).length ∧
    ((bucketOf cexC1h 104).getD 0 default).refcnt = 0 ∧
    bget 1 104 8 cexC1h = none := by
  refine ⟨?_, by decide, by decide, by decide, by decide, by decide⟩
  have h1 : Step initState cexC1a :=
    Step.get (show bget 1 13 UINTMAX initState = some (cexC1a, 0) by decide)
  have h2 : Step cexC1a cexC1b :=
    Step.relse (show brelse 0 0 cexC1a = some cexC1b by decide)
  have h3 : Step cexC1b cexC1c :=
    Step.get (show bget 1 26 2 cexC1b = some (cexC1c, 1) by decide)
  have h4 : Step cexC1c cexC1d :=
    Step.get (show bget 1 39 3 cexC1c = some (cexC1d, 2) by decide)
  have h5 : Step cexC1d cexC1e :=
    Step.get (show bget 1 52 4 cexC1d = some (cexC1e, 3) by decide)
  have h6 : Step cexC1e cexC1f :=
    Step.get (show bget 1 65 5 cexC1e = some (cexC1f, 4) by decide)
  have h7 : Step cexC1f cexC1g :=
    Step.get (show bget 1 78 6 cexC1f = some (cexC1g, 5) by decide)
  have h8 : Step cexC1g cexC1h :=
    Step.get (show bget 1 91 7 cexC1g = some (cexC1h, 6) by decide)
  unfold Reachable
  exact Relation.ReflTransGen.head h1 (Relation.ReflTransGen.head h2
    (Relation.ReflTransGen.head h3 (Relation.ReflTransGen.head h4
      (Relation.ReflTransGen.head h5 (Relation.ReflTransGen.head h6
        (Relation.ReflTransGen.head h7 (Relation.ReflTransGen.single h8)))))))

/-! ### Claim C2 -/

/-- C2: Scenario A. From the initialized state, acquiring the 7 distinct
blocks 13, 26, …, 91 (all hashing to partition 0) without releasing
leaves every slot of partition 0 with reference count 1; acquiring the
8th distinct block 104 of that partition is then fatal (`none`); after
releasing exactly one of the 7 (slot 3, holding block 52), retrying the
8th acquire succeeds and recycles exactly the released slot: slot 3's
identity becomes `(1, 104)`, invalid, reference count 1. -/
theorem claim_C2_scenarioA :
    scenA7.isSome = true ∧
    scenA7.map (fun s => (List.range BUFFERSIZE).all
      (fun j => (slotAt s 0 j).refcnt == 1)) = some true ∧
    scenA7.bind (bget 1 104 8) = none ∧
    (scenA7.bind (brelse 0 3)).map (fun s => (slotAt s 0 3).refcnt) = some 0 ∧
    ((scenA7.bind (brelse 0 3)).bind (bget 1 104 9)).map Prod.snd = some 3 ∧
    ((scenA7.bind (brelse 0 3)).bind (bget 1 104 9)).map
      (fun p => ((slotAt p.1 0 3).dev, (slotAt p.1 0 3).blockno,
                 (slotAt p.1 0 3).valid, (slotAt p.1 0 3).refcnt))
      = some (1, 104, false, 1) := by
  refine ⟨?_, ?_, ?_, ?_, ?_, ?_⟩ <;> decide

/-! ### Claim C6 -/

/-- C6: after `binit` on the zero-initialized global, every slot of every
partition has reference count 0, last-use 0, and validity false. -/
theorem claim_C6_init_clear : ∀ i j, i < BUCKETSIZE → j < BUFFERSIZE →
    (slotAt initState i j).refcnt = 0 ∧ (slotAt initState i j).lastuse = 0 ∧
    (slotAt initState i j).valid = false := by
  intro i j hi hj
  have hz : initState = zeroState := by decide
  have : slotAt initState i j = default := by
    rw [hz]
    unfold slotAt zeroState
    rw [getD_replicate _ _ hi, getD_replicate _ _ hj]
  rw [this]
  exact ⟨rfl, rfl, rfl⟩

theorem claim_C6_init_clear_witness :
    (slotAt initState 0 0).refcnt = 0 ∧ (slotAt initState 0 0).lastuse = 0 ∧
    (slotAt initState 0 0).valid = false :=
  claim_C6_init_clear 0 0 (by decide) (by decide)

/-! ### Claim C9 -/

/-- C9: `brelse` is fatal unless the caller holds the buffer's exclusive
lock; when the lock is held it decrements the reference count (the C
`uint` decrement, equal to subtraction whenever the count is at least 1)
and changes nothing else: the slot's last-use, validity, identity and
payload, and every other slot of every partition, are unchanged. -/
theorem claim_C9_brelse_frame (s : BCache) (i j : Nat) :
    (¬(slotAt s i j).locked = true → brelse i j s = none) ∧
    ((slotAt s i j).locked = true → ∃ s', brelse i j s = some s' ∧
      (slotAt s' i j).refcnt = udec (slotAt s i j).refcnt ∧
      (1 ≤ (slotAt s i j).refcnt → (slotAt s i j).refcnt ≤ UINTMAX →
        (slotAt s' i j).refcnt = (slotAt s i j).refcnt - 1) ∧
      (slotAt s' i j).lastuse = (slotAt s i j).lastuse ∧
      (slotAt s' i j).valid = (slotAt s i j).valid ∧
      (slotAt s' i j).dev = (slotAt s i j).dev ∧
      (slotAt s' i j).blockno = (slotAt s i j).blockno ∧
      (slotAt s' i j).data = (slotAt s i j).data ∧
      ∀ i' j', (i', j') ≠ (i, j) → slotAt s' i' j' = slotAt s i' j') := by
  constructor
  · intro h
    simp [brelse, h]
  · intro h
    obtain ⟨hi, hj⟩ := slotAt_locked_bounds h
    refine ⟨s.set i ((s.getD i []).set j
      { slotAt s i j with refcnt := udec (slotAt s i j).refcnt, locked := false }),
      by simp [brelse, h], ?_⟩
    rw [slotAt_set_self _ hi hj]
    refine ⟨rfl, ?_, rfl, rfl, rfl, rfl, rfl, ?_⟩
    · intro h1 h2
      show udec (slotAt s i j).refcnt = (slotAt s i j).refcnt - 1
      unfold udec UINTMAX UINTMOD
      unfold UINTMAX at h2
      omega
    · intro i' j' hne
      exact slotAt_set_ne _ hne

theorem claim_C9_brelse_frame_witness : brelse 0 0 lockedState ≠ none := by
  obtain ⟨s', hs', _⟩ := (claim_C9_brelse_frame lockedState 0 0).2 (by decide)
  rw [hs']
  simp

/-! ### Claim C8 -/

/-- After releasing the valid buffer returned by a matching read, a new
read of the same block hits the same slot, performs no device transfer,
and returns the same payload. -/
theorem bread_after_release {dev blockno t2 : Nat} {disk : Nat → Nat → Nat}
    {s1 s2 : BCache} {k1 : Nat}
    (hbi : blockno % BUCKETSIZE < s1.length)
    (hk : k1 < (bucketOf s1 blockno).length)
    (hfm : findMatch dev blockno (bucketOf s1 blockno) = some k1)
    (hv : (slotAt s1 (blockno % BUCKETSIZE) k1).valid = true)
    (h2 : brelse (blockno % BUCKETSIZE) k1 s1 = some s2) :
    ∃ s3, bread dev blockno t2 disk s2 = some (s3, k1, false) ∧
      (slotAt s3 (blockno % BUCKETSIZE) k1).data
        = (slotAt s1 (blockno % BUCKETSIZE) k1).data := by
  obtain ⟨hlock, hs2⟩ := brelse_inv h2
  have hbi2 : blockno % BUCKETSIZE < s2.length := by
    rw [hs2, List.length_set]
    exact hbi
  have hbucket2 : bucketOf s2 blockno = (bucketOf s1 blockno).set k1
      { slotAt s1 (blockno % BUCKETSIZE) k1 with
        refcnt := udec (slotAt s1 (blockno % BUCKETSIZE) k1).refcnt, locked := false } := by
    rw [hs2]
    show (s1.set _ _).getD _ [] = _
    rw [getD_set_self _ _ _ hbi]
    rfl
  have hk2 : k1 < (bucketOf s2 blockno).length := by
    rw [hbucket2, List.length_set]
    exact hk
  have hslot2 : slotAt s2 (blockno % BUCKETSIZE) k1
      = { slotAt s1 (blockno % BUCKETSIZE) k1 with
          refcnt := udec (slotAt s1 (blockno % BUCKETSIZE) k1).refcnt, locked := false } := by
    rw [hs2]
    exact slotAt_set_self _ hbi hk
  have hfm2 : findMatch dev blockno (bucketOf s2 blockno) = some k1 := by
    rw [hbucket2]
    refine Eq.trans (findMatch_set_congr _ k1 _ ?_ ?_) hfm <;> rfl
  have hbget2 : bget dev blockno t2 s2 = some (s2.set (blockno % BUCKETSIZE)
      ((bucketOf s2 blockno).set k1
        { (bucketOf s2 blockno).getD k1 default with
          refcnt := uinc ((bucketOf s2 blockno).getD k1 default).refcnt,
          lastuse := t2, locked := true }), k1) := bget_hit_eq hfm2
  have hval2 : ((bucketOf s2 blockno).getD k1 default).valid = true := by
    show (slotAt s2 (blockno % BUCKETSIZE) k1).valid = true
    rw [hslot2]
    exact hv
  have hdat2 : ((bucketOf s2 blockno).getD k1 default).data
      = (slotAt s1 (blockno % BUCKETSIZE) k1).data := by
    show (slotAt s2 (blockno % BUCKETSIZE) k1).data = _
    rw [hslot2]
  refine ⟨_, bread_eq_of_valid hbget2 ?_, ?_⟩
  · rw [slotAt_set_bucket_self _ hbi2 hk2]
    exact hval2
  · rw [slotAt_set_bucket_self _ hbi2 hk2]
    exact hdat2

/-- C8: two consecutive `read(device, block)` calls with no intervening
write return identical payload bytes. The first read marks the buffer
valid, loading it from the device exactly when it was not already valid;
after the buffer is released (as the sleep-lock discipline requires
between two uses by the same caller, and a release is not a write), the
second read finds the same slot cached and valid, performs no device
transfer, and returns the same payload. -/
theorem claim_C8_read_stable (s : BCache) (dev blockno t1 t2 : Nat)
    (disk : Nat → Nat → Nat) (s1 : BCache) (k1 : Nat) (tr1 : Bool)
    (h1 : bread dev blockno t1 disk s = some (s1, k1, tr1))
    (s2 : BCache) (h2 : brelse (blockno % BUCKETSIZE) k1 s1 = some s2) :
    (slotAt s1 (blockno % BUCKETSIZE) k1).valid = true ∧
    (tr1 = true → (slotAt s1 (blockno % BUCKETSIZE) k1).data = disk dev blockno) ∧
    ∃ s3, bread dev blockno t2 disk s2 = some (s3, k1, false) ∧
      (slotAt s3 (blockno % BUCKETSIZE) k1).data
        = (slotAt s1 (blockno % BUCKETSIZE) k1).data := by
  obtain ⟨s0, hb, hcase⟩ := bread_inv h1
  obtain ⟨hbi0, hk0, hlen0, hblen0⟩ := bget_bounds hb
  have hfm0 : findMatch dev blockno (bucketOf s0 blockno) = some k1 := bget_findMatch_after hb
  have hbi1 : blockno % BUCKETSIZE < s0.length := by
    rw [hlen0]
    exact hbi0
  have hk1 : k1 < (bucketOf s0 blockno).length := by
    rw [hblen0]
    exact hk0
  rcases hcase with ⟨hv, htr, hs1⟩ | ⟨hv, htr, hs1⟩
  · subst hs1
    refine ⟨hv, ?_, bread_after_release hbi1 hk1 hfm0 hv h2⟩
    intro hcon
    rw [htr] at hcon
    exact Bool.noConfusion hcon
  · have hbucket1 : bucketOf s1 blockno = (bucketOf s0 blockno).set k1
        { slotAt s0 (blockno % BUCKETSIZE) k1 with
          data := disk dev blockno, valid := true } := by
      rw [hs1]
      show (s0.set _ _).getD _ [] = _
      rw [getD_set_self _ _ _ hbi1]
      rfl
    have hslot1 : slotAt s1 (blockno % BUCKETSIZE) k1
        = { slotAt s0 (blockno % BUCKETSIZE) k1 with
            data := disk dev blockno, valid := true } := by
      rw [hs1]
      exact slotAt_set_self _ hbi1 hk1
    have hv1 : (slotAt s1 (blockno % BUCKETSIZE) k1).valid = true := by
      rw [hslot1]
    have hd1 : (slotAt s1 (blockno % BUCKETSIZE) k1).data = disk dev blockno := by
      rw [hslot1]
    have hfm1 : findMatch dev blockno (bucketOf s1 blockno) = some k1 := by
      rw [hbucket1]
      refine Eq.trans (findMatch_set_congr _ k1 _ ?_ ?_) hfm0 <;> rfl
    have hbi1' : blockno % BUCKETSIZE < s1.length := by
      rw [hs1, List.length_set]
      exact hbi1
    have hk1' : k1 < (bucketOf s1 blockno).length := by
      rw [hbucket1, List.length_set]
      exact hk1
    exact ⟨hv1, fun _ => hd1, bread_after_release hbi1' hk1' hfm1 hv1 h2⟩

theorem claim_C8_read_stable_witness :
    (slotAt readStateA (13 % BUCKETSIZE) 0).valid = true := by
  have h := claim_C8_read_stable initState 1 13 1 2 diskW readStateA 0 true (by decide)
    readStateB (by decide)
  exact h.1

/-! ### Claim C10 -/

/-- C10: every successful `acquire` — the recycling (miss) path exactly
like the hit path — sets the returned slot's last-use to the current tick
counter; consequently, on a miss the recycled slot is never an
unreferenced slot strictly newer than another unreferenced slot: if some
other unreferenced slot of the partition has a strictly smaller last-use,
slot `i` is not the one recycled. -/
theorem claim_C10_recency (s : BCache) (dev blockno ticks : Nat)
    (hlen : s.length = BUCKETSIZE) :
    (∀ s' k, bget dev blockno ticks s = some (s', k) →
      (slotAt s' (blockno % BUCKETSIZE) k).lastuse = ticks) ∧
    (findMatch dev blockno (bucketOf s blockno) = none →
      ∀ i j, i < (bucketOf s blockno).length → j < (bucketOf s blockno).length →
        ((bucketOf s blockno).getD i default).refcnt = 0 →
        ((bucketOf s blockno).getD j default).refcnt = 0 →
        ((bucketOf s blockno).getD j default).lastuse
          < ((bucketOf s blockno).getD i default).lastuse →
        ∀ s' k, bget dev blockno ticks s = some (s', k) → k ≠ i) := by
  have hbi : blockno % BUCKETSIZE < s.length := by
    rw [hlen]
    exact Nat.mod_lt _ (by norm_num [BUCKETSIZE])
  constructor
  · intro s' k h
    rcases bget_inv h with ⟨hm, hs'⟩ | ⟨hm, hp, hs'⟩
    · have hk : k < (bucketOf s blockno).length := (findMatch_some hm).1
      rw [hs', slotAt_set_bucket_self _ hbi hk]
    · have hk : k < (bucketOf s blockno).length := (lruPick_some hp).1
      rw [hs', slotAt_set_bucket_self _ hbi hk]
  · intro hmiss i j hi hj hri hrj hlt s' k h hk
    subst hk
    rcases bget_inv h with ⟨hm, _⟩ | ⟨_, hp, _⟩
    · rw [hmiss] at hm
      exact Option.noConfusion hm
    · obtain ⟨_, _, _, hbef, haft⟩ := lruPick_some hp
      rcases lt_trichotomy j k with hc | hc | hc
      · have := hbef j hc hrj
        omega
      · subst hc
        omega
      · have := haft j hc hj hrj
        omega

theorem claim_C10_recency_witness :
    (slotAt (((bget 1 13 5 initState).map Prod.fst).getD []) (13 % BUCKETSIZE) 0).lastuse
      = 5 := by
  have h := (claim_C10_recency initState 1 13 5 (by decide)).1
  exact h (((bget 1 13 5 initState).map Prod.fst).getD []) 0 (by decide)

/-! ### Claim C7: the identity-uniqueness invariant -/

/-- A one-slot update that preserves the slot's identity preserves every
slot's identity. -/
theorem slotAt_update_id {s : BCache} {i j : Nat} {b : Buf}
    (hdev : b.dev = (slotAt s i j).dev) (hbn : b.blockno = (slotAt s i j).blockno) :
    ∀ i' j', (slotAt (s.set i ((s.getD i []).set j b)) i' j').dev = (slotAt s i' j').dev ∧
      (slotAt (s.set i ((s.getD i []).set j b)) i' j').blockno = (slotAt s i' j').blockno := by
  intro i' j'
  by_cases hne : (i', j') = (i, j)
  · rw [Prod.mk.injEq] at hne
    obtain ⟨rfl, rfl⟩ := hne
    by_cases hi : i' < s.length
    · by_cases hj : j' < (s.getD i' []).length
      · rw [slotAt_set_self b hi hj]
        exact ⟨hdev, hbn⟩
      · rw [List.set_eq_of_length_le (le_of_not_lt hj)]
        unfold slotAt
        rw [getD_set_self _ _ _ hi]
        exact ⟨rfl, rfl⟩
    · rw [List.set_eq_of_length_le (le_of_not_lt hi)]
      exact ⟨rfl, rfl⟩
  · rw [slotAt_set_ne b hne]
    exact ⟨rfl, rfl⟩

theorem uniqueIds_of_id_eq {s s' : BCache}
    (hid : ∀ i j, (slotAt s' i j).dev = (slotAt s i j).dev ∧
      (slotAt s' i j).blockno = (slotAt s i j).blockno)
    (hu : UniqueIds s) : UniqueIds s' := by
  intro i1 j1 i2 j2 hb1 hb2 hb3 hb4 hne hdev hbn
  obtain ⟨e1d, e1b⟩ := hid i1 j1
  obtain ⟨e2d, e2b⟩ := hid i2 j2
  rw [e1d, e1b]
  refine hu i1 j1 i2 j2 hb1 hb2 hb3 hb4 hne ?_ ?_
  · rw [e1d, e2d] at hdev
    exact hdev
  · rw [e1b, e2b] at hbn
    exact hbn

theorem bucketHome_of_id_eq {s s' : BCache}
    (hid : ∀ i j, (slotAt s' i j).dev = (slotAt s i j).dev ∧
      (slotAt s' i j).blockno = (slotAt s i j).blockno)
    (hh : BucketHome s) : BucketHome s' := by
  intro i j hi hj hnz
  obtain ⟨ed, eb⟩ := hid i j
  rw [eb]
  refine hh i j hi hj ?_
  rw [← ed, ← eb]
  exact hnz

theorem shape_update {s : BCache} (hsh : Shape s) (i j : Nat) (b : Buf) :
    Shape (s.set i ((s.getD i []).set j b)) := by
  obtain ⟨h1, h2⟩ := hsh
  refine ⟨by rw [List.length_set]; exact h1, ?_⟩
  intro bucket hb
  by_cases hi : i < s.length
  · rcases List.mem_or_eq_of_mem_set hb with hmem | rfl
    · exact h2 bucket hmem
    · rw [List.length_set, List.getD_eq_getElem _ _ hi]
      exact h2 _ (List.getElem_mem hi)
  · rw [List.set_eq_of_length_le (le_of_not_lt hi)] at hb
    exact h2 bucket hb

theorem shape_bucket_len {s : BCache} (hsh : Shape s) {i : Nat} (hi : i < BUCKETSIZE) :
    (s.getD i []).length = BUFFERSIZE := by
  obtain ⟨h1, h2⟩ := hsh
  have hi' : i < s.length := by rw [h1]; exact hi
  rw [List.getD_eq_getElem _ _ hi']
  exact h2 _ (List.getElem_mem hi')

/-- Preservation of the invariant by the recycling path of `bget`:
writing identity `(dev, blockno)` into one slot of its home bucket, when
that bucket contained no match, keeps identities unique and homed. -/
theorem miss_preserves (s s' : BCache) (dev blockno k : Nat)
    (hsh : Shape s) (hu : UniqueIds s) (hh : BucketHome s)
    (hm : findMatch dev blockno (bucketOf s blockno) = none)
    (hselfdev : (slotAt s' (blockno % BUCKETSIZE) k).dev = dev)
    (hselfbn : (slotAt s' (blockno % BUCKETSIZE) k).blockno = blockno)
    (hother : ∀ p q, (p, q) ≠ (blockno % BUCKETSIZE, k) → slotAt s' p q = slotAt s p q) :
    UniqueIds s' ∧ BucketHome s' := by
  constructor
  · intro i1 j1 i2 j2 hb1 hb2 hb3 hb4 hne hdev hbn
    by_cases h1 : (i1, j1) = (blockno % BUCKETSIZE, k)
    · rw [Prod.mk.injEq] at h1
      obtain ⟨rfl, rfl⟩ := h1
      have h2 : (i2, j2) ≠ (blockno % BUCKETSIZE, j1) := fun hcon => hne hcon.symm
      rw [hother i2 j2 h2] at hdev hbn
      rw [hselfdev] at hdev
      rw [hselfbn] at hbn
      rw [hselfdev, hselfbn]
      by_contra hnz
      have hnz2 : ¬((slotAt s i2 j2).dev = 0 ∧ (slotAt s i2 j2).blockno = 0) := by
        intro hcon
        exact hnz ⟨hdev.trans hcon.1, hbn.trans hcon.2⟩
      have hhome := hh i2 j2 hb3 hb4 hnz2
      rw [← hbn] at hhome
      have hj2len : j2 < (bucketOf s blockno).length := by
        unfold bucketOf
        rw [shape_bucket_len hsh (Nat.mod_lt _ (by norm_num [BUCKETSIZE]))]
        exact hb4
      refine findMatch_none_getD hm hj2len ⟨?_, ?_⟩
      · show (slotAt s (blockno % BUCKETSIZE) j2).dev = dev
        rw [hhome]
        exact hdev.symm
      · show (slotAt s (blockno % BUCKETSIZE) j2).blockno = blockno
        rw [hhome]
        exact hbn.symm
    · by_cases h2 : (i2, j2) = (blockno % BUCKETSIZE, k)
      · rw [Prod.mk.injEq] at h2
        obtain ⟨rfl, rfl⟩ := h2
        rw [hother i1 j1 h1] at hdev hbn ⊢
        rw [hselfdev] at hdev
        rw [hselfbn] at hbn
        by_contra hnz
        have hhome := hh i1 j1 hb1 hb2 hnz
        rw [hbn] at hhome
        have hj1len : j1 < (bucketOf s blockno).length := by
          unfold bucketOf
          rw [shape_bucket_len hsh (Nat.mod_lt _ (by norm_num [BUCKETSIZE]))]
          exact hb2
        refine findMatch_none_getD hm hj1len ⟨?_, ?_⟩
        · show (slotAt s (blockno % BUCKETSIZE) j1).dev = dev
          rw [hhome]
          exact hdev
        · show (slotAt s (blockno % BUCKETSIZE) j1).blockno = blockno
          rw [hhome]
          exact hbn
      · rw [hother i1 j1 h1] at hdev hbn ⊢
        rw [hother i2 j2 h2] at hdev hbn
        exact hu i1 j1 i2 j2 hb1 hb2 hb3 hb4 hne hdev hbn
  · intro i j hi hj hnz
    by_cases hij : (i, j) = (blockno % BUCKETSIZE, k)
    · rw [Prod.mk.injEq] at hij
      obtain ⟨rfl, rfl⟩ := hij
      rw [hselfbn]
    · rw [hother i j hij] at hnz ⊢
      exact hh i j hi hj hnz

/-- Inversion of `bwrite`: it never changes the cache state. -/
theorem bwrite_inv {i j : Nat} {s s' : BCache} (h : bwrite i j s = some s') : s' = s := by
  by_cases hl : (slotAt s i j).locked
  · simp only [bwrite, hl, if_true, Option.some.injEq] at h
    exact h.symm
  · simp [bwrite, hl] at h

/-- A one-slot update preserving the slot's identity preserves the
invariant. -/
theorem inv_update_generic (s : BCache) (i j : Nat) (b : Buf)
    (hdev : b.dev = (slotAt s i j).dev) (hbn : b.blockno = (slotAt s i j).blockno)
    (hI : Inv s) : Inv (s.set i ((s.getD i []).set j b)) := by
  obtain ⟨hsh, hu, hh⟩ := hI
  have hid := slotAt_update_id hdev hbn
  exact ⟨shape_update hsh _ _ _, uniqueIds_of_id_eq hid hu, bucketHome_of_id_eq hid hh⟩

/-- Every cache operation preserves the invariant. -/
theorem inv_step {s s' : BCache} (h : Step s s') (hI : Inv s) : Inv s' := by
  have hbget : ∀ {dev blockno ticks : Nat} {t : BCache} {k : Nat},
      bget dev blockno ticks s = some (t, k) → Inv t := by
    intro dev blockno ticks t k hb
    obtain ⟨hsh, hu, hh⟩ := hI
    rcases bget_inv hb with ⟨hm, hs2⟩ | ⟨hm, hp, hs2⟩
    · subst hs2
      refine inv_update_generic s _ _ _ ?_ ?_ ⟨hsh, hu, hh⟩ <;> rfl
    · subst hs2
      have hk := (lruPick_some hp).1
      have hbi : blockno % BUCKETSIZE < s.length := lt_length_of_bucket hk
      have hself := slotAt_set_self
        { (bucketOf s blockno).getD k default with
          dev := dev, blockno := blockno, lastuse := ticks,
          valid := false, refcnt := 1, locked := true } hbi hk
      refine ⟨shape_update hsh _ _ _, ?_, ?_⟩
      · exact (miss_preserves s _ dev blockno k hsh hu hh hm (by rw [hself])
          (by rw [hself]) (fun p q hpq => slotAt_set_ne _ hpq)).1
      · exact (miss_preserves s _ dev blockno k hsh hu hh hm (by rw [hself])
          (by rw [hself]) (fun p q hpq => slotAt_set_ne _ hpq)).2
  cases h with
  | get hb => exact hbget hb
  | read hb =>
    obtain ⟨s0, hb0, hcase⟩ := bread_inv hb
    have hI0 := hbget hb0
    rcases hcase with ⟨_, _, rfl⟩ | ⟨_, _, hs2⟩
    · exact hI0
    · subst hs2
      refine inv_update_generic s0 _ _ _ ?_ ?_ hI0 <;> rfl
  | relse hb =>
    obtain ⟨hl, hs2⟩ := brelse_inv hb
    subst hs2
    refine inv_update_generic s _ _ _ ?_ ?_ hI <;> rfl
  | write hb =>
    rw [bwrite_inv hb]
    exact hI
  | pin i j _ =>
    show Inv (s.set i ((s.getD i []).set j
      { slotAt s i j with refcnt := uinc (slotAt s i j).refcnt }))
    refine inv_update_generic s _ _ _ ?_ ?_ hI <;> rfl
  | unpin i j _ =>
    show Inv (s.set i ((s.getD i []).set j
      { slotAt s i j with refcnt := udec (slotAt s i j).refcnt }))
    refine inv_update_generic s _ _ _ ?_ ?_ hI <;> rfl

theorem slotAt_initState (i j : Nat) : slotAt initState i j = default := by
  have hz : initState = zeroState := by decide
  rw [hz]
  unfold slotAt zeroState
  by_cases hi : i < BUCKETSIZE
  · rw [getD_replicate _ _ hi]
    by_cases hj : j < BUFFERSIZE
    · rw [getD_replicate _ _ hj]
    · rw [List.getD_eq_default _ _ (by simpa using le_of_not_lt hj)]
  · have hout : (List.replicate BUCKETSIZE (List.replicate BUFFERSIZE (default : Buf))).getD i []
        = [] := List.getD_eq_default _ _ (by simpa using le_of_not_lt hi)
    rw [hout]
    rfl

theorem inv_initState : Inv initState := by
  refine ⟨by decide, ?_, ?_⟩
  · intro i1 j1 i2 j2 _ _ _ _ _ _ _
    rw [slotAt_initState]
    exact ⟨rfl, rfl⟩
  · intro i j _ _ hnz
    exfalso
    apply hnz
    rw [slotAt_initState]
    exact ⟨rfl, rfl⟩

theorem reachable_inv {s : BCache} (h : Reachable s) : Inv s := by
  unfold Reachable at h
  induction h with
  | refl => exact inv_initState
  | tail _ hstep ih => exact inv_step hstep ih

/-- C7 (amended): in every state reachable from the initialized state by
acquire/read/write/release/pin/unpin, for every pair
`(device, block number)` other than the placeholder identity `(0, 0)`
left by zero initialization, at most one buffer slot across the whole
cache carries that identity, and any slot carrying it lies in the
partition deterministically selected by the block number. (The original
claim with no exception fails already in the initialized state, where
every slot of every partition carries `(0, 0)`: see the
counterexample.) -/
theorem claim_C7_unique_ids (s : BCache) (hreach : Reachable s)
    (d b : Nat) (hnz : ¬(d = 0 ∧ b = 0))
    (i1 j1 i2 j2 : Nat) (hb1 : i1 < BUCKETSIZE) (hb2 : j1 < BUFFERSIZE)
    (hb3 : i2 < BUCKETSIZE) (hb4 : j2 < BUFFERSIZE)
    (hid1 : (slotAt s i1 j1).dev = d ∧ (slotAt s i1 j1).blockno = b)
    (hid2 : (slotAt s i2 j2).dev = d ∧ (slotAt s i2 j2).blockno = b) :
    (i1, j1) = (i2, j2) ∧ i1 = b % BUCKETSIZE := by
  obtain ⟨hsh, hu, hh⟩ := reachable_inv hreach
  constructor
  · by_contra hne
    have hz := hu i1 j1 i2 j2 hb1 hb2 hb3 hb4 hne
      (by rw [hid1.1, hid2.1]) (by rw [hid1.2, hid2.2])
    exact hnz ⟨by rw [← hid1.1]; exact hz.1, by rw [← hid1.2]; exact hz.2⟩
  · have hhome := hh i1 j1 hb1 hb2 (by rw [hid1.1, hid1.2]; exact hnz)
    rw [hid1.2] at hhome
    exact hhome.symm

theorem claim_C7_unique_ids_witness :
    ((0, 0) : Nat × Nat) = (0, 0) ∧ 0 = 13 % BUCKETSIZE := by
  have hreach : Reachable lockedState :=
    Relation.ReflTransGen.single
      (Step.get (show bget 1 13 5 initState = some (lockedState, 0) by decide))
  exact claim_C7_unique_ids lockedState hreach 1 13 (by decide) 0 0 0 0
    (by decide) (by decide) (by decide) (by decide) ⟨by decide, by decide⟩
    ⟨by decide, by decide⟩

/-- C7 counterexample: the initialized state itself is reachable, and the
slots at positions (0,0) and (0,1) both carry the identity `(0, 0)`
(indeed all 91 slots do, because `binit` never writes the `dev` and
`blockno` fields, which stay at their C zero initialization), so
"(device, block) is unique across the whole cache at any instant" fails
as stated. -/
theorem claim_C7_counterexample :
    Reachable initState ∧
    ((0, 0) : Nat × Nat) ≠ (0, 1) ∧
    (slotAt initState 0 0).dev = (slotAt initState 0 1).dev ∧
    (slotAt initState 0 0).blockno = (slotAt initState 0 1).blockno ∧
    ¬(∀ i1 j1 i2 j2, i1 < BUCKETSIZE → j1 < BUFFERSIZE →
        i2 < BUCKETSIZE → j2 < BUFFERSIZE →
        (slotAt initState i1 j1).dev = (slotAt initState i2 j2).dev →
        (slotAt initState i1 j1).blockno = (slotAt initState i2 j2).blockno →
        (i1, j1) = (i2, j2)) := by
  refine ⟨Relation.ReflTransGen.refl, by decide, by decide, by decide, ?_⟩
  intro hall
  have := hall 0 0 0 1 (by decide) (by decide) (by decide) (by decide)
    (by decide) (by decide)
  exact absurd this (by decide)

end BufCache

namespace KAlloc

/-! ### Structural lemmas about the allocator -/

theorem tryFrom_all_empty (order : List Nat) (s : KState)
    (h : ∀ c ∈ order, s.getD c [] = []) : tryFrom order s = (none, s) := by
  induction order with
  | nil => rfl
  | cons c cs ih =>
    have hc := h c (List.mem_cons_self c cs)
    simp only [tryFrom, hc]
    exact ih (fun c' hc' => h c' (List.mem_cons_of_mem _ hc'))

theorem tryFrom_steal (pre : List Nat) : ∀ (j : Nat) (post : List Nat) (s : KState),
    (∀ c ∈ pre, s.getD c [] = []) → ∀ p rest, s.getD j [] = p :: rest →
    tryFrom (pre ++ j :: post) s = (some p, s.set j rest) := by
  induction pre with
  | nil =>
    intro j post s _ p rest hj
    simp only [List.nil_append, tryFrom, hj]
  | cons c cs ih =>
    intro j post s h p rest hj
    have hc := h c (List.mem_cons_self c cs)
    simp only [List.cons_append, tryFrom, hc]
    exact ih j post s (fun c' hc' => h c' (List.mem_cons_of_mem _ hc')) p rest hj

theorem stealOrder_mem_lt {ncpu cpu c : Nat} (hn : 0 < ncpu)
    (hc : c ∈ stealOrder ncpu cpu) : c < ncpu := by
  unfold stealOrder at hc
  simp only [List.mem_map, List.mem_range] at hc
  obtain ⟨i, _, rfl⟩ := hc
  exact Nat.mod_lt _ hn

theorem kalloc_own_empty {ncpu cpu : Nat} {s : KState} (hown : s.getD cpu [] = []) :
    kalloc ncpu cpu s = tryFrom (stealOrder ncpu cpu) s := by
  simp only [kalloc, hown]

theorem tryFrom_some {order : List Nat} {s s' : KState} {p : Nat}
    (h : tryFrom order s = (some p, s')) :
    ∃ c rest, c ∈ order ∧ s.getD c [] = p :: rest ∧ s' = s.set c rest := by
  induction order with
  | nil => simp [tryFrom] at h
  | cons c cs ih =>
    rcases hc : s.getD c [] with _ | ⟨r, rest⟩
    · simp only [tryFrom, hc] at h
      obtain ⟨c', rest', hmem, hg, hs⟩ := ih h
      exact ⟨c', rest', List.mem_cons_of_mem _ hmem, hg, hs⟩
    · simp only [tryFrom, hc, Prod.mk.injEq, Option.some.injEq] at h
      obtain ⟨hr, hs⟩ := h
      subst hr
      exact ⟨c, rest, List.mem_cons_self c cs, hc, hs.symm⟩

theorem tryFrom_none {order : List Nat} {s s' : KState}
    (h : tryFrom order s = (none, s')) : s' = s := by
  induction order with
  | nil =>
    simp only [tryFrom, Prod.mk.injEq] at h
    exact h.2.symm
  | cons c cs ih =>
    rcases hc : s.getD c [] with _ | ⟨r', rest⟩
    · simp only [tryFrom, hc] at h
      exact ih h
    · simp only [tryFrom, hc, Prod.mk.injEq] at h
      exact absurd h.1 (by simp)

theorem kalloc_some {ncpu cpu : Nat} {s s' : KState} {p : Nat}
    (h : kalloc ncpu cpu s = (some p, s')) :
    ∃ c rest, s.getD c [] = p :: rest ∧ s' = s.set c rest := by
  rcases hc : s.getD cpu [] with _ | ⟨r, rest⟩
  · rw [kalloc_own_empty hc] at h
    obtain ⟨c, rest, _, hg, hs⟩ := tryFrom_some h
    exact ⟨c, rest, hg, hs⟩
  · simp only [kalloc, hc, Prod.mk.injEq, Option.some.injEq] at h
    obtain ⟨hr, hs⟩ := h
    subst hr
    exact ⟨cpu, rest, hc, hs.symm⟩

theorem kalloc_none {ncpu cpu : Nat} {s s' : KState}
    (h : kalloc ncpu cpu s = (none, s')) : s' = s := by
  rcases hc : s.getD cpu [] with _ | ⟨r, rest⟩
  · rw [kalloc_own_empty hc] at h
    exact tryFrom_none h
  · simp only [kalloc, hc, Prod.mk.injEq] at h
    exact absurd h.1 (by simp)

theorem kfree_some_inv {endAddr physTop cpu pa : Nat} {s s' : KState}
    (h : kfree endAddr physTop cpu pa s = some s') :
    validPage endAddr physTop pa ∧ s' = s.set cpu (pa :: s.getD cpu []) := by
  unfold kfree at h
  by_cases hc : pa % PGSIZE ≠ 0 ∨ pa < endAddr ∨ physTop ≤ pa
  · rw [if_pos hc] at h
    exact Option.noConfusion h
  · rw [if_neg hc] at h
    push_neg at hc
    simp only [Option.some.injEq] at h
    exact ⟨⟨hc.1, hc.2.1, hc.2.2⟩, h.symm⟩

theorem mem_allPages_getD {s : KState} {c q : Nat} (hq : q ∈ s.getD c []) :
    q ∈ allPages s := by
  by_cases hc : c < s.length
  · rw [List.getD_eq_getElem _ _ hc] at hq
    exact List.mem_flatten.mpr ⟨_, List.getElem_mem hc, hq⟩
  · rw [List.getD_eq_default _ _ (le_of_not_lt hc)] at hq
    simp at hq

theorem not_mem_allPages_set {s : KState} {c : Nat} {rest : List Nat} {p : Nat}
    (hp : p ∉ allPages s) (hrest : ∀ x ∈ rest, x ∈ allPages s) :
    p ∉ allPages (s.set c rest) := by
  intro hmem
  unfold allPages at hmem
  rw [List.mem_flatten] at hmem
  obtain ⟨l, hl, hpl⟩ := hmem
  rcases List.mem_or_eq_of_mem_set hl with hl' | rfl
  · exact hp (List.mem_flatten.mpr ⟨l, hl', hpl⟩)
  · exact hp (hrest p hpl)

theorem flatten_set_perm {p : Nat} {rest : List Nat} :
    ∀ (s : KState) (c : Nat), s.getD c [] = p :: rest →
    List.Perm (allPages s) (p :: allPages (s.set c rest)) := by
  intro s
  induction s with
  | nil =>
    intro c h
    simp at h
  | cons l ls ih =>
    intro c h
    cases c with
    | zero =>
      simp only [List.getD_cons_zero] at h
      subst h
      exact List.Perm.refl _
    | succ c' =>
      simp only [List.getD_cons_succ] at h
      exact (List.Perm.append_left l (ih c' h)).trans List.perm_middle

theorem flatten_push_perm {q : Nat} :
    ∀ (s : KState) (c : Nat), c < s.length →
    List.Perm (allPages (s.set c (q :: s.getD c []))) (q :: allPages s) := by
  intro s
  induction s with
  | nil =>
    intro c h
    simp at h
  | cons l ls ih =>
    intro c h
    cases c with
    | zero => exact List.Perm.refl _
    | succ c' =>
      have := ih c' (by simpa using h)
      exact (List.Perm.append_left l this).trans List.perm_middle

theorem allPages_replicate_nil (n : Nat) :
    allPages (List.replicate n ([] : List Nat)) = [] := by
  induction n with
  | zero => rfl
  | succ n ih =>
    unfold allPages at ih ⊢
    rw [List.replicate_succ, List.flatten_cons]
    simp [ih]

end KAlloc

namespace KAlloc

/-- `kfree` keeps all pooled pages valid. -/
theorem kwf_kfree {endAddr physTop cpu pa : Nat} {s s' : KState}
    (hwf : KWF endAddr physTop s) (h : kfree endAddr physTop cpu pa s = some s') :
    KWF endAddr physTop s' := by
  obtain ⟨hvp, hs'⟩ := kfree_some_inv h
  subst hs'
  intro q hq
  unfold allPages at hq
  rw [List.mem_flatten] at hq
  obtain ⟨l, hl, hql⟩ := hq
  rcases List.mem_or_eq_of_mem_set hl with hl' | rfl
  · exact hwf q (List.mem_flatten.mpr ⟨l, hl', hql⟩)
  · rcases List.mem_cons.mp hql with rfl | hq'
    · exact hvp
    · exact hwf q (mem_allPages_getD hq')

/-- A successful `kalloc` returns a valid page and keeps all pooled
pages valid. -/
theorem kwf_kalloc {ncpu endAddr physTop cpu : Nat} {s s' : KState} {p : Nat}
    (hwf : KWF endAddr physTop s) (h : kalloc ncpu cpu s = (some p, s')) :
    validPage endAddr physTop p ∧ KWF endAddr physTop s' := by
  obtain ⟨c, rest, hg, hs'⟩ := kalloc_some h
  subst hs'
  constructor
  · exact hwf p (mem_allPages_getD (by rw [hg]; exact List.mem_cons_self _ _))
  · intro q hq
    unfold allPages at hq
    rw [List.mem_flatten] at hq
    obtain ⟨l, hl, hql⟩ := hq
    rcases List.mem_or_eq_of_mem_set hl with hl' | rfl
    · exact hwf q (List.mem_flatten.mpr ⟨l, hl', hql⟩)
    · exact hwf q (mem_allPages_getD (by rw [hg]; exact List.mem_cons_of_mem _ hql))

/-! ### Claim C3 -/

/-- C3: when `kalloc` runs on processor `cpu` and `cpu`'s own free list
is empty, the other pools are visited in round-robin order
`(cpu+1) % ncpu, (cpu+2) % ncpu, …`; the first pool found non-empty has
exactly one page (its head) popped from it, every other pool being left
unchanged; and if every pool is empty, `kalloc` returns the explicit
"no memory" result `none` (never a fatal error) with the state
unchanged. -/
theorem claim_C3_steal (ncpu cpu : Nat) (s : KState)
    (hcpu : cpu < ncpu) (hown : s.getD cpu [] = []) :
    ((∀ c, c < ncpu → s.getD c [] = []) → kalloc ncpu cpu s = (none, s)) ∧
    (stealOrder ncpu cpu = (List.range (ncpu - 1)).map (fun i => (cpu + i + 1) % ncpu)) ∧
    (∀ pre j post, stealOrder ncpu cpu = pre ++ j :: post →
      (∀ c ∈ pre, s.getD c [] = []) →
      ∀ p rest, s.getD j [] = p :: rest →
        kalloc ncpu cpu s = (some p, s.set j rest) ∧
        ∀ c, c ≠ j → (s.set j rest).getD c [] = s.getD c []) := by
  refine ⟨?_, rfl, ?_⟩
  · intro hall
    rw [kalloc_own_empty hown]
    exact tryFrom_all_empty _ s (fun c hc =>
      hall c (stealOrder_mem_lt (Nat.lt_of_le_of_lt (Nat.zero_le _) hcpu) hc))
  · intro pre j post horder hpre p rest hj
    constructor
    · rw [kalloc_own_empty hown, horder]
      exact tryFrom_steal pre j post s hpre p rest hj
    · intro c hc
      exact BufCache.getD_set_ne s rest [] (fun hcon => hc hcon.symm)

theorem claim_C3_steal_witness :
    kalloc 2 1 [[4096, 8192], []] = (some 4096, [[8192], []]) := by
  have h := (claim_C3_steal 2 1 [[4096, 8192], []] (by decide) (by decide)).2.2
    [] 0 [] (by decide) (by simp) 4096 [8192] (by decide)
  exact h.1

/-! ### Claim C4 -/

/-- C4: `kfree(pa)` is fatal if and only if the address is invalid (not
page-aligned, below `end`, or at/above `PHYSTOP`); a valid address is
never fatal, and freeing keeps the pools well formed. Every page
returned by a successful `kalloc` — in particular from any reachable
allocator state — is page-aligned and lies within the managed range. -/
theorem claim_C4_bounds (ncpu endAddr physTop cpu pa : Nat) (s : KState) :
    (kfree endAddr physTop cpu pa s = none ↔ ¬validPage endAddr physTop pa) ∧
    (∀ s', KWF endAddr physTop s → kfree endAddr physTop cpu pa s = some s' →
      KWF endAddr physTop s') ∧
    (∀ p s', KWF endAddr physTop s → kalloc ncpu cpu s = (some p, s') →
      (p % PGSIZE = 0 ∧ endAddr ≤ p ∧ p < physTop) ∧ KWF endAddr physTop s') ∧
    (KReach ncpu endAddr physTop s → KWF endAddr physTop s) := by
  refine ⟨?_, ?_, ?_, ?_⟩
  · unfold kfree validPage
    by_cases hc : pa % PGSIZE ≠ 0 ∨ pa < endAddr ∨ physTop ≤ pa
    · rw [if_pos hc]
      constructor
      · intro _ hv
        omega
      · intro _
        rfl
    · rw [if_neg hc]
      push_neg at hc
      constructor
      · intro h
        exact Option.noConfusion h
      · intro hv
        exact absurd ⟨hc.1, hc.2.1, hc.2.2⟩ hv
  · intro s' hwf h
    exact kwf_kfree hwf h
  · intro p s' hwf h
    exact kwf_kalloc hwf h
  · intro hreach
    unfold KReach at hreach
    induction hreach with
    | refl =>
      intro q hq
      rw [allPages_replicate_nil] at hq
      simp at hq
    | tail hsteps hstep ih =>
      cases hstep with
      | alloc hA => exact (kwf_kalloc ih hA).2
      | free hq hF => exact kwf_kfree ih hF

theorem claim_C4_bounds_witness : kfree 4096 40960 0 5 [] = none :=
  (claim_C4_bounds 1 4096 40960 0 5 []).1.mpr (by decide)

/-! ### Claim C5 -/

/-- C5: conservation. From every reachable allocator state (reached
under the documented usage contract that `free` is only applied to pages
not currently free) no page address appears in two free lists, or twice
within one free list, at once; a page popped by one `kalloc` is absent
from every pool afterwards; and it can neither be returned by another
`kalloc` nor re-enter any pool while only other pages are freed — only
an intervening `kfree` of that same page can make it available again. -/
theorem claim_C5_conservation (ncpu endAddr physTop : Nat) :
    (∀ s, KReach ncpu endAddr physTop s → (allPages s).Nodup) ∧
    (∀ s cpu p s', (allPages s).Nodup → kalloc ncpu cpu s = (some p, s') →
      p ∉ allPages s' ∧ (allPages s').Nodup) ∧
    (∀ s cpu p r s', p ∉ allPages s → kalloc ncpu cpu s = (r, s') →
      r ≠ some p ∧ p ∉ allPages s') ∧
    (∀ s cpu p q s', p ∉ allPages s → q ≠ p →
      kfree endAddr physTop cpu q s = some s' → p ∉ allPages s') := by
  have hpop : ∀ (s : KState) (cpu p : Nat) (s' : KState),
      (allPages s).Nodup → kalloc ncpu cpu s = (some p, s') →
      p ∉ allPages s' ∧ (allPages s').Nodup := by
    intro s cpu p s' hnd h
    obtain ⟨c, rest, hg, hs'⟩ := kalloc_some h
    subst hs'
    have hperm := flatten_set_perm s c hg
    have hnd' := hperm.nodup_iff.mp hnd
    rw [List.nodup_cons] at hnd'
    exact hnd'
  have hfree : ∀ (s : KState) (cpu p q : Nat) (s' : KState), p ∉ allPages s → q ≠ p →
      kfree endAddr physTop cpu q s = some s' → p ∉ allPages s' := by
    intro s cpu p q s' hp hne h
    obtain ⟨_, hs'⟩ := kfree_some_inv h
    subst hs'
    intro hmem
    unfold allPages at hmem
    rw [List.mem_flatten] at hmem
    obtain ⟨l, hl, hpl⟩ := hmem
    rcases List.mem_or_eq_of_mem_set hl with hl' | rfl
    · exact hp (List.mem_flatten.mpr ⟨l, hl', hpl⟩)
    · rcases List.mem_cons.mp hpl with rfl | hp'
      · exact hne rfl
      · exact hp (mem_allPages_getD hp')
  have halloc3 : ∀ (s : KState) (cpu p : Nat) (r : Option Nat) (s' : KState),
      p ∉ allPages s → kalloc ncpu cpu s = (r, s') → r ≠ some p ∧ p ∉ allPages s' := by
    intro s cpu p r s' hp h
    rcases r with _ | p'
    · have hs' := kalloc_none h
      subst hs'
      exact ⟨by simp, hp⟩
    · obtain ⟨c, rest, hg, hs'⟩ := kalloc_some h
      subst hs'
      have hp' : p' ∈ allPages s :=
        mem_allPages_getD (by rw [hg]; exact List.mem_cons_self _ _)
      constructor
      · intro hcon
        rw [Option.some.injEq] at hcon
        exact hp (hcon ▸ hp')
      · exact not_mem_allPages_set hp
          (fun x hx => mem_allPages_getD (by rw [hg]; exact List.mem_cons_of_mem _ hx))
  have hfreend : ∀ (s : KState) (cpu q : Nat) (s' : KState), (allPages s).Nodup →
      q ∉ allPages s → kfree endAddr physTop cpu q s = some s' →
      (allPages s').Nodup := by
    intro s cpu q s' hnd hq h
    obtain ⟨_, hs'⟩ := kfree_some_inv h
    subst hs'
    by_cases hcl : cpu < s.length
    · exact (flatten_push_perm s cpu hcl).nodup_iff.mpr (List.nodup_cons.mpr ⟨hq, hnd⟩)
    · rw [List.set_eq_of_length_le (le_of_not_lt hcl)]
      exact hnd
  refine ⟨?_, hpop, halloc3, hfree⟩
  intro s hreach
  unfold KReach at hreach
  induction hreach with
  | refl =>
    rw [allPages_replicate_nil]
    exact List.nodup_nil
  | tail hsteps hstep ih =>
    cases hstep with
    | alloc hA => exact (hpop _ _ _ _ ih hA).2
    | free hq hF => exact hfreend _ _ _ _ ih hq hF

theorem claim_C5_conservation_witness :
    (4096 : Nat) ∉ allPages [[8192]] ∧ (allPages [[8192]]).Nodup :=
  (claim_C5_conservation 1 0 0).2.1 [[4096, 8192]] 0 4096 [[8192]] (by decide) (by decide)

end KAlloc
